import Mathlib

/-!
Verification of the cuVS IVF list storage manager, codepacker and bitset
against their natural-language specification.

The repository sources available here contain the public headers and
declarations (`cuvs::neighbors::ivf::list`, `cuvs::neighbors::ivf::kInvalidRecord`,
`cuvs::neighbors::ivf_flat::codepacker::pack/unpack/pack_1/unpack_1`,
`cuvs::neighbors::ivf::resize_list`, `cuvs::neighbors::ivf_flat::helpers::reset_index`,
the `cuvs::core::bitset` instantiations, and the `ivf_flat::extend` instantiation
stubs), but not the kernel/implementation bodies.  Where a body is missing, the
corresponding Lean definition is modelled from the specification text and is
marked `Modelled from the spec:` in its doc string.  Device memory blocks are
modelled as total functions `Nat → T`; machine indices are `Nat`/`Int`.
-/

namespace Cuvs

/-! ## Generic machinery: a sequence of writes into a flat memory block -/

/-- Apply a list of (position, value) writes to a memory block, left to right
(later writes win), exactly like a sequential loop of stores. -/
def updList {T : Type} (ps : List (Nat × T)) (f : Nat → T) : Nat → T :=
  ps.foldl (fun g p => Function.update g p.1 p.2) f

theorem updList_nil {T : Type} (f : Nat → T) : updList [] f = f := rfl

theorem updList_cons {T : Type} (p : Nat × T) (ps : List (Nat × T)) (f : Nat → T) :
    updList (p :: ps) f = updList ps (Function.update f p.1 p.2) := rfl

theorem updList_of_not_mem {T : Type} {ps : List (Nat × T)} {i : Nat} (f : Nat → T)
    (h : i ∉ ps.map Prod.fst) : updList ps f i = f i := by
  induction ps generalizing f with
  | nil => rfl
  | cons p ps ih =>
    simp only [List.map_cons, List.mem_cons, not_or] at h
    rw [updList_cons, ih _ h.2, Function.update_noteq h.1]

theorem updList_of_mem {T : Type} {ps : List (Nat × T)} {i : Nat} {x : T} (f : Nat → T)
    (hnd : (ps.map Prod.fst).Nodup) (hm : (i, x) ∈ ps) : updList ps f i = x := by
  induction ps generalizing f with
  | nil => cases hm
  | cons p ps ih =>
    simp only [List.map_cons, List.nodup_cons] at hnd
    rw [updList_cons]
    rcases List.mem_cons.mp hm with heq | hm'
    · have hp1 : p.1 = i := by rw [← heq]
      have : i ∉ ps.map Prod.fst := hp1 ▸ hnd.1
      rw [updList_of_not_mem _ this, hp1, ← heq, Function.update_same]
    · exact ih _ hnd.2 hm'

/-! ## Codepacker: the interleaved list layout

The spec (§3 Interleaved Layout) groups the records of a list into contiguous
chunks of `chunk_rows` rows; within a chunk the data is interleaved in pieces
of `veclen` consecutive dimensions so that any power-of-two `veclen` chunk is
contiguous.  `idxInter chunk_rows dim veclen r d` is the flat position of
dimension `d` of record `r` in the block. -/

/-- Modelled from the spec: the interleaved-layout address of dimension `d` of
record `r`, for group size `chunk_rows` and interleaving width `veclen`
(the body of `codepacker::pack_1`/`unpack_1` is not among the sources; this is
the `(r / chunk_rows) * chunk_rows * veclen + (r % chunk_rows) * veclen`-style
addressing of §3, completed with the per-dimension chunk term). -/
def idxInter (chunk_rows dim veclen r d : Nat) : Nat :=
  chunk_rows * dim * (r / chunk_rows) +
    (chunk_rows * veclen * (d / veclen) + (veclen * (r % chunk_rows) + d % veclen))

/-- Uniqueness of the quotient/remainder decomposition used by the layout. -/
theorem mul_add_split {M a b a' b' : Nat} (hb : b < M) (hb' : b' < M)
    (h : M * a + b = M * a' + b') : a = a' ∧ b = b' := by
  have hM : 0 < M := Nat.lt_of_le_of_lt (Nat.zero_le b) hb
  constructor
  · simpa [Nat.mul_add_div hM, Nat.div_eq_of_lt hb, Nat.div_eq_of_lt hb'] using
      congrArg (· / M) h
  · simpa [Nat.mul_add_mod, Nat.mod_eq_of_lt hb, Nat.mod_eq_of_lt hb'] using
      congrArg (· % M) h

/-- The within-chunk part `veclen * (r % chunk_rows) + d % veclen` stays inside
one `chunk_rows * veclen` chunk. -/
theorem inner2_lt {G v : Nat} (hG : 0 < G) (hv : 0 < v) (r d : Nat) :
    v * (r % G) + d % v < G * v := by
  have h2 : d % v < v := Nat.mod_lt _ hv
  have h1 : r % G < G := Nat.mod_lt _ hG
  calc v * (r % G) + d % v < v * (r % G) + v := Nat.add_lt_add_left h2 _
    _ = v * (r % G + 1) := by ring
    _ ≤ v * G := Nat.mul_le_mul_left _ h1
    _ = G * v := Nat.mul_comm v G

/-- The within-group part of the interleaved address stays inside one group of
`chunk_rows * dim` elements. -/
theorem inner_lt {G v dim d : Nat} (hG : 0 < G) (hv : 0 < v) (hdvd : v ∣ dim)
    (hd : d < dim) (r : Nat) :
    G * v * (d / v) + (v * (r % G) + d % v) < G * dim := by
  have h2 := inner2_lt hG hv r d
  have h3 : d / v < dim / v := Nat.div_lt_div_of_lt_of_dvd hdvd hd
  calc G * v * (d / v) + (v * (r % G) + d % v)
      < G * v * (d / v) + G * v := Nat.add_lt_add_left h2 _
    _ = G * v * (d / v + 1) := by ring
    _ ≤ G * v * (dim / v) := Nat.mul_le_mul_left _ h3
    _ = G * (v * (dim / v)) := by ring
    _ = G * dim := by rw [Nat.mul_div_cancel' hdvd]

/-- The interleaved addressing is injective on (record, dimension) pairs:
no two in-bounds writes alias. -/
theorem idxInter_inj {G v dim r₁ r₂ d₁ d₂ : Nat} (hG : 0 < G) (hv : 0 < v)
    (hdvd : v ∣ dim) (hd₁ : d₁ < dim) (hd₂ : d₂ < dim)
    (h : idxInter G dim v r₁ d₁ = idxInter G dim v r₂ d₂) : r₁ = r₂ ∧ d₁ = d₂ := by
  unfold idxInter at h
  obtain ⟨hA, hrest⟩ :=
    mul_add_split (inner_lt hG hv hdvd hd₁ r₁) (inner_lt hG hv hdvd hd₂ r₂) h
  obtain ⟨hB, hrest2⟩ := mul_add_split (inner2_lt hG hv r₁ d₁) (inner2_lt hG hv r₂ d₂) hrest
  obtain ⟨hC, hD⟩ := mul_add_split (Nat.mod_lt _ hv) (Nat.mod_lt _ hv) hrest2
  constructor
  · calc r₁ = G * (r₁ / G) + r₁ % G := (Nat.div_add_mod r₁ G).symm
      _ = G * (r₂ / G) + r₂ % G := by rw [hA, hC]
      _ = r₂ := Nat.div_add_mod r₂ G
  · calc d₁ = v * (d₁ / v) + d₁ % v := (Nat.div_add_mod d₁ v).symm
      _ = v * (d₂ / v) + d₂ % v := by rw [hB, hD]
      _ = d₂ := Nat.div_add_mod d₂ v

/-- Every in-bounds interleaved address fits inside a block of
`cap_rounded * dim` elements, when the allocated row count `cap_rounded` is a
multiple of the group size. -/
theorem idxInter_lt {G v dim r d cap : Nat} (hG : 0 < G) (hv : 0 < v)
    (hdvd : v ∣ dim) (hd : d < dim) (hr : r < cap) (hGcap : G ∣ cap) :
    idxInter G dim v r d < cap * dim := by
  have h1 := inner_lt hG hv hdvd hd r
  have h2 : r / G < cap / G := Nat.div_lt_div_of_lt_of_dvd hGcap hr
  calc idxInter G dim v r d
      = G * dim * (r / G) + (G * v * (d / v) + (v * (r % G) + d % v)) := rfl
    _ < G * dim * (r / G) + G * dim := Nat.add_lt_add_left h1 _
    _ = G * dim * (r / G + 1) := by ring
    _ ≤ G * dim * (cap / G) := Nat.mul_le_mul_left _ h2
    _ = dim * (G * (cap / G)) := by ring
    _ = dim * cap := by rw [Nat.mul_div_cancel' hGcap]
    _ = cap * dim := Nat.mul_comm dim cap

namespace codepacker

/-- Modelled from the spec: `codepacker::pack_1(flat_code, block, dim, veclen,
offset)` — write one flat code of `dim` elements into the interleaved `block`
at record position `offset` (the kernel body is not among the sources). -/
def pack_1 {T : Type} (flat_code : Nat → T) (block : Nat → T)
    (chunk_rows dim veclen offset : Nat) : Nat → T :=
  updList ((List.range dim).map fun d => (idxInter chunk_rows dim veclen offset d, flat_code d))
    block

/-- Modelled from the spec: `codepacker::unpack_1(block, flat_code, dim,
veclen, offset)` — read one flat code of `dim` elements from the interleaved
`block` at record position `offset`. -/
def unpack_1 {T : Type} (block : Nat → T) (chunk_rows dim veclen offset : Nat) : Nat → T :=
  fun d => block (idxInter chunk_rows dim veclen offset d)

/-- Modelled from the spec: batch `codepacker::pack(codes, veclen, offset,
list_data)` — write `n_vec` flat codes into the list block starting at record
`offset`, one record at a time. -/
def pack {T : Type} (codes : Nat → Nat → T) (block : Nat → T)
    (chunk_rows dim veclen offset n_vec : Nat) : Nat → T :=
  (List.range n_vec).foldl
    (fun b k => pack_1 (codes k) b chunk_rows dim veclen (offset + k)) block

/-- Modelled from the spec: batch `codepacker::unpack(list_data, veclen,
offset, codes)` — read `n_take` consecutive records starting at `offset` into
flat codes (the record count is the destination extent, ranged over by `k`). -/
def unpack {T : Type} (block : Nat → T) (chunk_rows dim veclen offset : Nat) :
    Nat → Nat → T :=
  fun k => unpack_1 block chunk_rows dim veclen (offset + k)

/-- The flat positions touched by a batch pack (and read by the matching
unpack) of `n_vec` records at record offset `offset`. -/
def accessed (chunk_rows dim veclen offset n_vec : Nat) : List Nat :=
  (List.range n_vec).flatMap fun k =>
    (List.range dim).map fun d => idxInter chunk_rows dim veclen (offset + k) d

theorem pack_succ {T : Type} (codes : Nat → Nat → T) (block : Nat → T)
    (G dim v off n : Nat) :
    pack codes block G dim v off (n + 1) =
      pack_1 (codes n) (pack codes block G dim v off n) G dim v (off + n) := by
  unfold pack
  rw [List.range_succ, List.foldl_append]
  rfl

/-- Reading the slot a `pack_1` wrote returns the element written. -/
theorem pack_1_read {T : Type} {G dim v d : Nat} (flat_code : Nat → T) (block : Nat → T)
    (off : Nat) (hG : 0 < G) (hv : 0 < v) (hdvd : v ∣ dim) (hd : d < dim) :
    pack_1 flat_code block G dim v off (idxInter G dim v off d) = flat_code d := by
  apply updList_of_mem
  · rw [List.map_map]
    refine List.Nodup.map_on ?_ (List.nodup_range dim)
    intro a ha b hb hab
    exact (idxInter_inj hG hv hdvd (List.mem_range.mp ha) (List.mem_range.mp hb) hab).2
  · exact List.mem_map_of_mem _ (List.mem_range.mpr hd)

/-- `pack_1` leaves every slot it does not own unchanged. -/
theorem pack_1_frame {T : Type} {G dim v : Nat} (flat_code : Nat → T) (block : Nat → T)
    (off i : Nat) (h : ∀ d < dim, i ≠ idxInter G dim v off d) :
    pack_1 flat_code block G dim v off i = block i := by
  apply updList_of_not_mem
  rw [List.map_map]
  intro hmem
  obtain ⟨d, hd, he⟩ := List.mem_map.mp hmem
  exact h d (List.mem_range.mp hd) he.symm

/-- Reading record `k` of a batch pack of `n` records returns code `k`. -/
theorem pack_read {T : Type} {G dim v k d : Nat} (codes : Nat → Nat → T) (block : Nat → T)
    (off n : Nat) (hG : 0 < G) (hv : 0 < v) (hdvd : v ∣ dim)
    (hk : k < n) (hd : d < dim) :
    pack codes block G dim v off n (idxInter G dim v (off + k) d) = codes k d := by
  induction n with
  | zero => cases hk
  | succ n ih =>
    rw [pack_succ]
    rcases Nat.lt_succ_iff_lt_or_eq.mp hk with hk' | rfl
    · rw [pack_1_frame]
      · exact ih hk'
      · intro d₂ hd₂ he
        have := (idxInter_inj hG hv hdvd hd hd₂ he).1
        omega
    · exact pack_1_read (codes k) _ _ hG hv hdvd hd

/-- C1: for every supported element type (any `T`) and every valid
`(veclen, offset, n)` within list bounds, unpacking the result of packing a
batch of flat codes returns the original flat codes bit-exactly, and
`pack_1`/`unpack_1` are exact inverses for a single record. -/
theorem C1_codepacker_roundtrip {T : Type} (chunk_rows dim veclen : Nat)
    (hG : 0 < chunk_rows) (hv : 0 < veclen) (hdvd : veclen ∣ dim) :
    (∀ (flat_code block : Nat → T) (offset d : Nat), d < dim →
        unpack_1 (pack_1 flat_code block chunk_rows dim veclen offset)
          chunk_rows dim veclen offset d = flat_code d) ∧
    (∀ (codes : Nat → Nat → T) (block : Nat → T) (offset n_vec k d : Nat),
        k < n_vec → d < dim →
        unpack (pack codes block chunk_rows dim veclen offset n_vec)
          chunk_rows dim veclen offset k d = codes k d) := by
  constructor
  · intro flat block off d hd
    exact codepacker.pack_1_read flat block off hG hv hdvd hd
  · intro codes block off n k d hk hd
    exact codepacker.pack_read codes block off n hG hv hdvd hk hd

theorem C1_codepacker_roundtrip_witness :
    0 < 2 ∧ 0 < 2 ∧ 2 ∣ 4 ∧
      codepacker.unpack
          (codepacker.pack (fun k d => 10 * k + d) (fun _ => 0) 2 4 2 1 3) 2 4 2 1 2 3 =
        10 * 2 + 3 :=
  ⟨by decide, by decide, by decide,
    (C1_codepacker_roundtrip 2 4 2 (by decide) (by decide) (by decide)).2
      (fun k d => 10 * k + d) (fun _ => 0) 1 3 2 3 (by decide) (by decide)⟩

/-- C8: under the precondition `offset + n_vec ≤ size` (with `size` within the
allocated capacity, whose row count is group-aligned), every flat position
accessed by the batch `pack` — and read by the matching `unpack`, which touches
exactly the same positions — lies inside the allocated data block. -/
theorem C8_codepacker_bounds (chunk_rows dim veclen offset n_vec size cap : Nat)
    (hG : 0 < chunk_rows) (hv : 0 < veclen) (hdvd : veclen ∣ dim)
    (hpre : offset + n_vec ≤ size) (hsz : size ≤ cap) (hcap : chunk_rows ∣ cap) :
    ∀ i ∈ codepacker.accessed chunk_rows dim veclen offset n_vec, i < cap * dim := by
  intro i hi
  obtain ⟨k, hk, hi2⟩ := List.mem_flatMap.mp hi
  obtain ⟨d, hd, rfl⟩ := List.mem_map.mp hi2
  have hk' := List.mem_range.mp hk
  have hd' := List.mem_range.mp hd
  exact idxInter_lt hG hv hdvd hd' (by omega) hcap

theorem C8_codepacker_bounds_witness :
    (0 < 2 ∧ 0 < 2 ∧ 2 ∣ 4 ∧ 1 + 2 ≤ 3 ∧ 3 ≤ 4 ∧ 2 ∣ 4) ∧
      ∀ i ∈ codepacker.accessed 2 4 2 1 2, i < 4 * 4 :=
  ⟨⟨by decide, by decide, by decide, by decide, by decide, by decide⟩,
    C8_codepacker_bounds 2 4 2 1 2 3 4 (by decide) (by decide) (by decide)
      (by decide) (by decide) (by decide)⟩

end codepacker

/-! ## IVF list store

`cuvs::neighbors::ivf::list` (sources, part_001) holds `data` (device array of
up to `capacity` vectors), `indices` (device array of `capacity` source ids)
and an atomic `size`.  The device arrays are modelled as total functions from
record position, with the allocated extent kept in `cap`; a record's vector is
a `List α`. -/

namespace ivf

/-- `kInvalidRecord` from the sources: the default value filled in the
`indices` array, `(is_signed ? IdxT{0} : numeric_limits<IdxT>::max()) - 1`
evaluated in a `bits`-wide integer type (`max = 2^bits - 1` for unsigned). -/
def kInvalidRecord (signed : Bool) (bits : Nat) : Int :=
  (if signed then (0 : Int) else (2 : Int) ^ bits - 1) - 1

/-- The data for a single IVF list (source: `cuvs::neighbors::ivf::list`).
`cap` is the allocated extent (in records) of both device arrays. -/
structure list (α ι : Type) where
  cap : Nat
  data : Nat → List α
  indices : Nat → ι
  size : Nat

/-- Modelled from the spec: the `list` constructor — "allocate a new list
capable of holding at least `n_rows` data records and indices", size = 0,
`indices` default-filled with the invalid-record sentinel (the constructor
body is not among the sources). -/
def listCreate {α ι : Type} (sentinel : ι) (emptyVec : List α) (cap : Nat) : list α ι :=
  { cap := cap, data := fun _ => emptyVec, indices := fun _ => sentinel, size := 0 }

/-- Modelled from the spec: `ivf::resize_list` — allocate a fresh block that
can contain `new_cap` records, copy forward the first `old_used` records, leave
the rest default-initialized (indices at the sentinel), and keep the live
`size` untouched (the body is not among the sources; only the declaration is). -/
def resize_list {α ι : Type} (sentinel : ι) (emptyVec : List α) (l : list α ι)
    (new_cap old_used : Nat) : list α ι :=
  { cap := new_cap
    data := fun i => if i < old_used then l.data i else emptyVec
    indices := fun i => if i < old_used then l.indices i else sentinel
    size := l.size }

/-- Modelled from the spec: write `m` new records (vectors and source ids)
into the block starting at record position `start`; positions outside
`[start, start + m)` are untouched. -/
def writeRecords {α ι : Type} (l : list α ι) (start m : Nat)
    (vecs : Nat → List α) (ids : Nat → ι) : list α ι :=
  { l with
    data := fun i => if start ≤ i ∧ i < start + m then vecs (i - start) else l.data i
    indices := fun i => if start ≤ i ∧ i < start + m then ids (i - start) else l.indices i }

/-- Modelled from the spec: the per-list step of `extend` — if
`size + m > capacity`, first grow into a freshly allocated block carrying the
existing records over, then copy in the `m` new records after the old ones,
and only then advance `size`. -/
def listExtend {α ι : Type} (sentinel : ι) (emptyVec : List α) (l : list α ι)
    (m : Nat) (vecs : Nat → List α) (ids : Nat → ι) : list α ι :=
  let grown := if l.cap < l.size + m then resize_list sentinel emptyVec l (l.size + m) l.size
               else l
  let written := writeRecords grown l.size m vecs ids
  { written with size := l.size + m }

/-- The intermediate states a single-list `extend` passes through, in order:
original, after reallocation/migration, after the new records are copied in,
and finally after `size` is advanced. -/
def extendTrace {α ι : Type} (sentinel : ι) (emptyVec : List α) (l : list α ι)
    (m : Nat) (vecs : Nat → List α) (ids : Nat → ι) : List (list α ι) :=
  let grown := if l.cap < l.size + m then resize_list sentinel emptyVec l (l.size + m) l.size
               else l
  let written := writeRecords grown l.size m vecs ids
  [l, grown, written, { written with size := l.size + m }]

/-- C2: at every state an `extend` passes through, the live count `size` never
exceeds the allocated extents, and `size` is still the original one in every
state before the final publication — reallocation and migration happen before
`size` is advanced, never after. -/
theorem C2_size_never_exceeds_extents {α ι : Type} (sentinel : ι) (emptyVec : List α)
    (l : list α ι) (m : Nat) (vecs : Nat → List α) (ids : Nat → ι)
    (hwf : l.size ≤ l.cap) :
    (∀ s ∈ extendTrace sentinel emptyVec l m vecs ids, s.size ≤ s.cap) ∧
    (∀ s ∈ (extendTrace sentinel emptyVec l m vecs ids).take 3, s.size = l.size) := by
  by_cases hgrow : l.cap < l.size + m
  · refine ⟨fun s hs => ?_, fun s hs => ?_⟩
    · simp only [extendTrace, if_pos hgrow, List.mem_cons, List.not_mem_nil, or_false] at hs
      rcases hs with rfl | rfl | rfl | rfl
      · exact hwf
      · show l.size ≤ l.size + m
        omega
      · show l.size ≤ l.size + m
        omega
      · show l.size + m ≤ l.size + m
        omega
    · simp only [extendTrace, if_pos hgrow, List.take, List.mem_cons,
        List.not_mem_nil, or_false] at hs
      rcases hs with rfl | rfl | rfl
      · rfl
      · rfl
      · rfl
  · refine ⟨fun s hs => ?_, fun s hs => ?_⟩
    · simp only [extendTrace, if_neg hgrow, List.mem_cons, List.not_mem_nil, or_false] at hs
      rcases hs with rfl | rfl | rfl | rfl
      · exact hwf
      · exact hwf
      · exact hwf
      · show l.size + m ≤ l.cap
        omega
    · simp only [extendTrace, if_neg hgrow, List.take, List.mem_cons,
        List.not_mem_nil, or_false] at hs
      rcases hs with rfl | rfl | rfl
      · rfl
      · rfl
      · rfl

theorem C2_size_never_exceeds_extents_witness :
    (2 ≤ 4) ∧
      ((∀ s ∈ extendTrace 0 ([] : List Nat)
            (⟨4, fun _ => [], fun _ => 0, 2⟩ : list Nat Int)
            3 (fun _ => []) (fun _ => 0), s.size ≤ s.cap) ∧
        (∀ s ∈ (extendTrace 0 ([] : List Nat)
            (⟨4, fun _ => [], fun _ => 0, 2⟩ : list Nat Int)
            3 (fun _ => []) (fun _ => 0)).take 3, s.size = 2)) :=
  ⟨by decide,
    C2_size_never_exceeds_extents 0 [] _ 3 (fun _ => []) (fun _ => 0) (by decide)⟩

/-- C3: extending a list with `m` new records such that reallocation is
triggered leaves every previously visible `(id, vector)` pair at positions
`[0, old_size)` unchanged, and the `m` new records occupy exactly positions
`[old_size, old_size + m)` in insertion order. -/
theorem C3_extend_preserves_and_appends {α ι : Type} (sentinel : ι) (emptyVec : List α)
    (l : list α ι) (m : Nat) (vecs : Nat → List α) (ids : Nat → ι)
    (hwf : l.size ≤ l.cap) (htrig : l.cap < l.size + m) :
    (∀ i < l.size,
        (listExtend sentinel emptyVec l m vecs ids).data i = l.data i ∧
        (listExtend sentinel emptyVec l m vecs ids).indices i = l.indices i) ∧
    (∀ j < m,
        (listExtend sentinel emptyVec l m vecs ids).data (l.size + j) = vecs j ∧
        (listExtend sentinel emptyVec l m vecs ids).indices (l.size + j) = ids j) ∧
    (listExtend sentinel emptyVec l m vecs ids).size = l.size + m := by
  simp only [listExtend, htrig, if_true, resize_list, writeRecords]
  refine ⟨fun i hi => ?_, fun j hj => ?_, trivial⟩
  · constructor <;>
    · show (if l.size ≤ i ∧ i < l.size + m then _ else if i < l.size then _ else _) = _
      rw [if_neg (by omega), if_pos hi]
  · have harg : l.size + j - l.size = j := by omega
    constructor <;>
    · show (if l.size ≤ l.size + j ∧ l.size + j < l.size + m then _ else _) = _
      rw [if_pos ⟨by omega, by omega⟩, harg]

theorem C3_extend_preserves_and_appends_witness :
    (1 ≤ 2 ∧ 2 < 1 + 2) ∧
      (∀ i < 1,
          (listExtend 7 [] (⟨2, fun _ => [5], fun _ => 9, 1⟩ : list Nat Nat)
              2 (fun k => [k]) (fun k => k)).data i = [5] ∧
          (listExtend 7 [] (⟨2, fun _ => [5], fun _ => 9, 1⟩ : list Nat Nat)
              2 (fun k => [k]) (fun k => k)).indices i = 9) ∧
      (∀ j < 2,
          (listExtend 7 [] (⟨2, fun _ => [5], fun _ => 9, 1⟩ : list Nat Nat)
              2 (fun k => [k]) (fun k => k)).data (1 + j) = [j] ∧
          (listExtend 7 [] (⟨2, fun _ => [5], fun _ => 9, 1⟩ : list Nat Nat)
              2 (fun k => [k]) (fun k => k)).indices (1 + j) = j) ∧
      (listExtend 7 [] (⟨2, fun _ => [5], fun _ => 9, 1⟩ : list Nat Nat)
          2 (fun k => [k]) (fun k => k)).size = 1 + 2 := by
  have h := C3_extend_preserves_and_appends 7 []
    (⟨2, fun _ => [5], fun _ => 9, 1⟩ : list Nat Nat)
    2 (fun k => [k]) (fun k => k) (by decide) (by decide)
  exact ⟨⟨by decide, by decide⟩, h.1, h.2.1, h.2.2⟩

/-! ### The growth operation as a step machine (copy-then-swap)

To reason about a growth that fails partway, `resize_list` is refined into a
sequence of primitive steps over a machine state holding the currently
published list and a scratch block.  Steps `0 .. old_used - 1` copy one
existing record each into the scratch block; the single final step publishes
(swaps in) the fully populated block.  A failure after `k` steps is the run of
the first `k` steps. -/

/-- Machine state during a list growth: the published list readers see, plus
the freshly allocated scratch block being populated. -/
structure GrowState (α ι : Type) where
  published : list α ι
  scratch_data : Nat → List α
  scratch_indices : Nat → ι

/-- Modelled from the spec: one primitive step of the growth operation.
`step < old_used` copies record `step` from the published (original) list into
the scratch block; otherwise the step is the publication swap. -/
def growStep {α ι : Type} (new_cap old_used : Nat) (s : GrowState α ι) (step : Nat) :
    GrowState α ι :=
  if step < old_used then
    { s with
      scratch_data := Function.update s.scratch_data step (s.published.data step)
      scratch_indices := Function.update s.scratch_indices step (s.published.indices step) }
  else
    { s with
      published := ⟨new_cap, s.scratch_data, s.scratch_indices, s.published.size⟩ }

/-- Initial growth state: the original list is published; the scratch block is
freshly allocated and default-filled. -/
def growInit {α ι : Type} (sentinel : ι) (emptyVec : List α) (l : list α ι) :
    GrowState α ι :=
  { published := l, scratch_data := fun _ => emptyVec, scratch_indices := fun _ => sentinel }

/-- Run the first `k` steps of the growth operation (a failure partway is a
run of a proper prefix; the complete operation has `old_used + 1` steps). -/
def growRun {α ι : Type} (sentinel : ι) (emptyVec : List α) (l : list α ι)
    (new_cap old_used k : Nat) : GrowState α ι :=
  (List.range k).foldl (growStep new_cap old_used) (growInit sentinel emptyVec l)

theorem growRun_succ {α ι : Type} (sentinel : ι) (emptyVec : List α) (l : list α ι)
    (new_cap old_used k : Nat) :
    growRun sentinel emptyVec l new_cap old_used (k + 1) =
      growStep new_cap old_used (growRun sentinel emptyVec l new_cap old_used k) k := by
  unfold growRun
  rw [List.range_succ, List.foldl_append]
  rfl

theorem growRun_spec {α ι : Type} (sentinel : ι) (emptyVec : List α) (l : list α ι)
    (new_cap old_used : Nat) :
    ∀ k, k ≤ old_used →
      (growRun sentinel emptyVec l new_cap old_used k).published = l ∧
      (growRun sentinel emptyVec l new_cap old_used k).scratch_data =
        (fun i => if i < k then l.data i else emptyVec) ∧
      (growRun sentinel emptyVec l new_cap old_used k).scratch_indices =
        (fun i => if i < k then l.indices i else sentinel) := by
  intro k
  induction k with
  | zero =>
    intro _
    refine ⟨rfl, ?_, ?_⟩ <;> (funext j; simp [growRun, growInit])
  | succ n ih =>
    intro hk1
    obtain ⟨h1, h2, h3⟩ := ih (by omega)
    rw [growRun_succ]
    unfold growStep
    rw [if_pos (show n < old_used by omega)]
    refine ⟨h1, ?_, ?_⟩
    · funext j
      show Function.update (growRun sentinel emptyVec l new_cap old_used n).scratch_data n
          ((growRun sentinel emptyVec l new_cap old_used n).published.data n) j =
        (if j < n + 1 then l.data j else emptyVec)
      rw [h1, h2]
      by_cases hjn : j = n
      · subst hjn
        rw [Function.update_same, if_pos (by omega)]
      · rw [Function.update_noteq hjn]
        by_cases hj : j < n
        · rw [if_pos hj, if_pos (by omega)]
        · rw [if_neg hj, if_neg (by omega)]
    · funext j
      show Function.update (growRun sentinel emptyVec l new_cap old_used n).scratch_indices n
          ((growRun sentinel emptyVec l new_cap old_used n).published.indices n) j =
        (if j < n + 1 then l.indices j else sentinel)
      rw [h1, h3]
      by_cases hjn : j = n
      · subst hjn
        rw [Function.update_same, if_pos (by omega)]
      · rw [Function.update_noteq hjn]
        by_cases hj : j < n
        · rw [if_pos hj, if_pos (by omega)]
        · rw [if_neg hj, if_neg (by omega)]

/-- C4: a growth operation that fails partway — after any proper prefix of its
steps, i.e. before the publication swap — leaves the original list published,
intact and unmodified; and the complete run publishes exactly the grown block
of `resize_list` (the new block is fully populated before any publication:
copy-then-swap, never an in-place destructive resize). -/
theorem C4_growth_failure_atomicity {α ι : Type} (sentinel : ι) (emptyVec : List α)
    (l : list α ι) (new_cap old_used k : Nat) (hk : k ≤ old_used) :
    (growRun sentinel emptyVec l new_cap old_used k).published = l ∧
    (growRun sentinel emptyVec l new_cap old_used (old_used + 1)).published =
      resize_list sentinel emptyVec l new_cap old_used := by
  refine ⟨(growRun_spec sentinel emptyVec l new_cap old_used k hk).1, ?_⟩
  obtain ⟨h1, h2, h3⟩ := growRun_spec sentinel emptyVec l new_cap old_used old_used le_rfl
  rw [growRun_succ]
  unfold growStep
  rw [if_neg (lt_irrefl old_used)]
  show (⟨new_cap, _, _, _⟩ : list α ι) = resize_list sentinel emptyVec l new_cap old_used
  rw [h1, h2, h3]
  rfl

theorem C4_growth_failure_atomicity_witness :
    (1 ≤ 1) ∧
      ((growRun 7 [] (⟨2, fun _ => [3], fun _ => 8, 1⟩ : list Nat Nat) 4 1 1).published =
          (⟨2, fun _ => [3], fun _ => 8, 1⟩ : list Nat Nat) ∧
        (growRun 7 [] (⟨2, fun _ => [3], fun _ => 8, 1⟩ : list Nat Nat) 4 1 2).published =
          resize_list 7 [] (⟨2, fun _ => [3], fun _ => 8, 1⟩ : list Nat Nat) 4 1) :=
  ⟨by decide,
    C4_growth_failure_atomicity 7 [] (⟨2, fun _ => [3], fun _ => 8, 1⟩ : list Nat Nat)
      4 1 1 (by decide)⟩

/-- C5: the `indices` sentinel is `-1` for signed index types and
`max value - 1` for unsigned ones, the two are distinct, a freshly created
list has every indices entry outside the `size` bound at the sentinel, and
`extend` keeps every indices entry outside the (new) `size` bound at the
sentinel. -/
theorem C5_invalid_record_sentinel (bits : Nat) (hb : 1 ≤ bits) :
    kInvalidRecord true bits = -1 ∧
    kInvalidRecord false bits = ((2 : Int) ^ bits - 1) - 1 ∧
    kInvalidRecord true bits ≠ kInvalidRecord false bits ∧
    (∀ (α ι : Type) (sentinel : ι) (emptyVec : List α) (cap pos : Nat),
        (listCreate sentinel emptyVec cap).size ≤ pos →
        (listCreate sentinel emptyVec cap).indices pos = sentinel) ∧
    (∀ (α ι : Type) (sentinel : ι) (emptyVec : List α) (l : list α ι)
        (m : Nat) (vecs : Nat → List α) (ids : Nat → ι) (pos : Nat),
        (∀ q, l.size ≤ q → l.indices q = sentinel) →
        (listExtend sentinel emptyVec l m vecs ids).size ≤ pos →
        (listExtend sentinel emptyVec l m vecs ids).indices pos = sentinel) := by
  have h2 : (2 : Int) ^ 1 ≤ (2 : Int) ^ bits := pow_le_pow_right₀ (by norm_num) hb
  refine ⟨rfl, rfl, ?_, fun α ι sentinel emptyVec cap pos _ => rfl, ?_⟩
  · show (0 : Int) - 1 ≠ ((2 : Int) ^ bits - 1) - 1
    have : (2 : Int) ^ 1 = 2 := by norm_num
    omega
  · intro α ι sentinel emptyVec l m vecs ids pos htail hpos
    have hpos' : l.size + m ≤ pos := hpos
    show (if l.size ≤ pos ∧ pos < l.size + m then _ else
        (if l.cap < l.size + m then resize_list sentinel emptyVec l (l.size + m) l.size
         else l).indices pos) = sentinel
    rw [if_neg (by omega)]
    by_cases hgrow : l.cap < l.size + m
    · rw [if_pos hgrow]
      show (if pos < l.size then l.indices pos else sentinel) = sentinel
      rw [if_neg (by omega)]
    · rw [if_neg hgrow]
      exact htail pos (by omega)

theorem C5_invalid_record_sentinel_witness :
    (1 ≤ 8) ∧
      (kInvalidRecord true 8 = -1 ∧
        kInvalidRecord false 8 = ((2 : Int) ^ 8 - 1) - 1 ∧
        kInvalidRecord true 8 ≠ kInvalidRecord false 8) :=
  ⟨by decide,
    (C5_invalid_record_sentinel 8 (by decide)).1,
    (C5_invalid_record_sentinel 8 (by decide)).2.1,
    (C5_invalid_record_sentinel 8 (by decide)).2.2.1⟩

/-! ### The IVF index: a collection of lists -/

/-- An IVF index, as far as the list store is concerned: one list per cluster
label. -/
structure index (α ι : Type) where
  lists : List (list α ι)

/-- Modelled from the spec: `helpers::reset_index` — clear all list sizes to
zero and invalidate all indices entries to the sentinel, without releasing
allocated capacity (the body is not among the sources; only the declaration
is). -/
def reset_index {α ι : Type} (sentinel : ι) (idx : index α ι) : index α ι :=
  ⟨idx.lists.map fun l => { l with size := 0, indices := fun _ => sentinel }⟩

/-- C7: `reset_index` sets every list's size to zero and every indices entry
to the invalid-record sentinel, while leaving the number of lists, each list's
allocated capacity and each list's data storage untouched (no reallocation or
freeing of the backing storage). -/
theorem C7_reset_index_frame {α ι : Type} (sentinel : ι) (dflt : list α ι)
    (idx : index α ι) :
    (reset_index sentinel idx).lists.length = idx.lists.length ∧
    ∀ j, j < idx.lists.length →
      ((reset_index sentinel idx).lists.getD j dflt).size = 0 ∧
      (∀ p, ((reset_index sentinel idx).lists.getD j dflt).indices p = sentinel) ∧
      ((reset_index sentinel idx).lists.getD j dflt).cap = (idx.lists.getD j dflt).cap ∧
      ((reset_index sentinel idx).lists.getD j dflt).data = (idx.lists.getD j dflt).data := by
  have hlen : (reset_index sentinel idx).lists.length = idx.lists.length := by
    simp [reset_index]
  refine ⟨hlen, fun j hj => ?_⟩
  have hget : (reset_index sentinel idx).lists.getD j dflt =
      { idx.lists.getD j dflt with size := 0, indices := fun _ => sentinel } := by
    have hj2 : j < (idx.lists.map fun l =>
        { l with size := 0, indices := fun _ => sentinel }).length := by
      rw [List.length_map]
      exact hj
    rw [List.getD_eq_getElem _ _ (hlen ▸ hj), List.getD_eq_getElem _ _ hj]
    show (idx.lists.map fun l => { l with size := 0, indices := fun _ => sentinel })[j] = _
    rw [List.getElem_map]
  rw [hget]
  exact ⟨rfl, fun p => rfl, rfl, rfl⟩

theorem C7_reset_index_frame_witness :
    (0 < 1) ∧
      (((reset_index 3 ⟨[⟨2, fun _ => [1], fun _ => 5, 2⟩]⟩ :
            index Nat Nat).lists.getD 0 (⟨0, fun _ => [], fun _ => 0, 0⟩ : list Nat Nat)).size
          = 0 ∧
        (∀ p, ((reset_index 3 (⟨[⟨2, fun _ => [1], fun _ => 5, 2⟩]⟩ : index Nat Nat)).lists.getD
            0 (⟨0, fun _ => [], fun _ => 0, 0⟩ : list Nat Nat)).indices p = 3)) := by
  have h := C7_reset_index_frame 3 (⟨0, fun _ => [], fun _ => 0, 0⟩ : list Nat Nat)
    (⟨[⟨2, fun _ => [1], fun _ => 5, 2⟩]⟩ : index Nat Nat)
  exact ⟨by decide, (h.2 0 (by decide)).1, (h.2 0 (by decide)).2.1⟩

/-! ### The two public `extend` overloads

The instantiation stub `ivf_flat_extend_float_int64_t.cpp` defines two public
overloads: one takes the original index by const reference and returns a new
extended index, the other takes a pointer and extends the index in place; both
forward to the same inner `extend`.  In the embedding, the new records are
routed to lists by an external label assignment (the cluster classifier),
each list receiving its records in order. -/

/-- Modelled from the spec: the record positions among `m` new records that
are routed to cluster label `ℓ`. -/
def labelSelect (labels : Nat → Nat) (m ℓ : Nat) : List Nat :=
  (List.range m).filter fun k => labels k = ℓ

/-- Modelled from the spec: extend the single list of cluster `ℓ` with the new
records routed to it. -/
def extendOneList {α ι : Type} (sentinel : ι) (emptyVec : List α) (labels : Nat → Nat)
    (m : Nat) (vecs : Nat → List α) (ids : Nat → ι) (ℓ : Nat) (l : list α ι) : list α ι :=
  listExtend sentinel emptyVec l (labelSelect labels m ℓ).length
    (fun j => vecs ((labelSelect labels m ℓ).getD j 0))
    (fun j => ids ((labelSelect labels m ℓ).getD j 0))

/-- Modelled from the spec: the `extend` overload returning a new index — it
builds a fresh index whose lists are the extended lists of the original. -/
def extend_ret {α ι : Type} (sentinel : ι) (emptyVec : List α) (labels : Nat → Nat)
    (m : Nat) (vecs : Nat → List α) (ids : Nat → ι) (idx : index α ι) : index α ι :=
  ⟨idx.lists.mapIdx fun ℓ l => extendOneList sentinel emptyVec labels m vecs ids ℓ l⟩

/-- The sequential in-place loop of the pointer-taking `extend` overload:
walk the lists cell by cell, replacing each with its extended version. -/
def extendLoop {α ι : Type} (sentinel : ι) (emptyVec : List α) (labels : Nat → Nat)
    (m : Nat) (vecs : Nat → List α) (ids : Nat → ι) : Nat → List (list α ι) → List (list α ι)
  | _, [] => []
  | ℓ, l :: rest =>
    extendOneList sentinel emptyVec labels m vecs ids ℓ l ::
      extendLoop sentinel emptyVec labels m vecs ids (ℓ + 1) rest

/-- Modelled from the spec: the `extend` overload mutating the index through a
pointer, modelled by state passing — the result is the final state of the
pointed-to index. -/
def extend_inplace {α ι : Type} (sentinel : ι) (emptyVec : List α) (labels : Nat → Nat)
    (m : Nat) (vecs : Nat → List α) (ids : Nat → ι) (idx : index α ι) : index α ι :=
  ⟨extendLoop sentinel emptyVec labels m vecs ids 0 idx.lists⟩

/-- A deep copy of an index (the copy the pointer-taking overload is applied
to in the equivalence statement). -/
def copyIndex {α ι : Type} (idx : index α ι) : index α ι :=
  ⟨idx.lists⟩

theorem extendLoop_eq_mapIdx {α ι : Type} (sentinel : ι) (emptyVec : List α)
    (labels : Nat → Nat) (m : Nat) (vecs : Nat → List α) (ids : Nat → ι) :
    ∀ (ls : List (list α ι)) (ℓ0 : Nat),
      extendLoop sentinel emptyVec labels m vecs ids ℓ0 ls =
        ls.mapIdx fun i l => extendOneList sentinel emptyVec labels m vecs ids (ℓ0 + i) l := by
  intro ls
  induction ls with
  | nil => intro ℓ0; rfl
  | cons l rest ih =>
    intro ℓ0
    rw [List.mapIdx_cons]
    show extendOneList sentinel emptyVec labels m vecs ids ℓ0 l ::
        extendLoop sentinel emptyVec labels m vecs ids (ℓ0 + 1) rest = _
    rw [ih (ℓ0 + 1)]
    have harg : (fun i l => extendOneList sentinel emptyVec labels m vecs ids (ℓ0 + 1 + i) l) =
        (fun i l => extendOneList sentinel emptyVec labels m vecs ids (ℓ0 + (i + 1)) l) := by
      funext i l
      have : ℓ0 + 1 + i = ℓ0 + (i + 1) := by omega
      rw [this]
    rw [harg, Nat.add_zero]

/-- C10: for every input `(new_vectors, new_indices)` (with their label
routing) and every starting index, the two public `extend` overloads are
equivalent — the overload returning a new index produces exactly the state the
pointer-taking overload leaves in a copy of the original index it was applied
to. -/
theorem C10_extend_overloads_equivalent {α ι : Type} (sentinel : ι) (emptyVec : List α)
    (labels : Nat → Nat) (m : Nat) (vecs : Nat → List α) (ids : Nat → ι)
    (idx : index α ι) :
    extend_ret sentinel emptyVec labels m vecs ids idx =
      extend_inplace sentinel emptyVec labels m vecs ids (copyIndex idx) := by
  show extend_ret sentinel emptyVec labels m vecs ids idx =
    ⟨extendLoop sentinel emptyVec labels m vecs ids 0 idx.lists⟩
  rw [extendLoop_eq_mapIdx]
  show (⟨idx.lists.mapIdx fun ℓ l => extendOneList sentinel emptyVec labels m vecs ids ℓ l⟩ :
      index α ι) = ⟨idx.lists.mapIdx fun i l => extendOneList sentinel emptyVec labels m vecs ids (0 + i) l⟩
  have : (fun (i : Nat) (l : list α ι) =>
      extendOneList sentinel emptyVec labels m vecs ids (0 + i) l) =
      (fun i l => extendOneList sentinel emptyVec labels m vecs ids i l) := by
    funext i l
    rw [Nat.zero_add]
  rw [this]

end ivf

/-! ## Bitset

`cuvs::core::bitset` (sources, part_000, instantiated for word types of
8/16/32/64 bits) packs `n_bits` booleans into fixed-width words.  Only the
explicit template instantiations are among the sources, so the operations are
modelled from the spec (§4.1): `set`, `test`, `count`, `flip_all`, `reset`,
and bitwise `&=,|=,^=` against a bitset of equal `n_bits`, all mutating ops
masking the tail bits of the final word to zero.  A word of width `w` is a
`Nat < 2 ^ w`. -/

namespace core

/-- Number of `w`-bit words needed to hold `n_bits` bits. -/
def numWordsFor (w n_bits : Nat) : Nat := (n_bits + w - 1) / w

/-- A bitset: the backing word array and the logical bit count. -/
structure bitset where
  words : List Nat
  n_bits : Nat

/-- Number of valid (non-padding) bit positions inside word `j`. -/
def validBits (w n_bits j : Nat) : Nat := min w (n_bits - j * w)

/-- Mask of the valid bits of word `j` (all-ones except the tail padding). -/
def wordMask (w n_bits j : Nat) : Nat := 2 ^ validBits w n_bits j - 1

/-- Modelled from the spec: `test(pos)` — read bit `pos`. -/
def bitset.test (w : Nat) (b : bitset) (pos : Nat) : Bool :=
  (b.words.getD (pos / w) 0).testBit (pos % w)

/-- Modelled from the spec: `count()` — the number of one bits over the whole
word array (a sum of per-word popcounts). -/
def bitset.count (w : Nat) (b : bitset) : Nat :=
  (List.range (b.words.length * w)).countP fun p => bitset.test w b p

/-- Modelled from the spec: `create(n_bits, initial_value)` — allocate and
zero/one-fill (a one-fill masks the tail of the last word). -/
def bitset.create (w n_bits : Nat) (val : Bool) : bitset :=
  ⟨(List.range (numWordsFor w n_bits)).map fun j => if val then wordMask w n_bits j else 0,
    n_bits⟩

/-- Modelled from the spec: `set(pos, value)` — set or clear bit `pos`
(callers guarantee `pos < n_bits`). -/
def bitset.set (w : Nat) (b : bitset) (pos : Nat) (val : Bool) : bitset :=
  ⟨b.words.set (pos / w)
      (if val then b.words.getD (pos / w) 0 ||| 2 ^ (pos % w)
       else b.words.getD (pos / w) 0 &&& ((2 ^ w - 1) ^^^ 2 ^ (pos % w))),
    b.n_bits⟩

/-- Modelled from the spec: `flip_all()` — complement every word, masking the
tail of the final word back to zero. -/
def bitset.flip_all (w : Nat) (b : bitset) : bitset :=
  ⟨(List.range b.words.length).map fun j =>
      ((2 ^ w - 1) ^^^ b.words.getD j 0) &&& wordMask w b.n_bits j,
    b.n_bits⟩

/-- Modelled from the spec: `reset()` — zero every word. -/
def bitset.reset (b : bitset) : bitset :=
  ⟨List.replicate b.words.length 0, b.n_bits⟩

/-- Modelled from the spec: `&=` against another bitset of equal `n_bits`. -/
def bitset.and_eq (w : Nat) (b other : bitset) : bitset :=
  ⟨(List.range b.words.length).map fun j => b.words.getD j 0 &&& other.words.getD j 0,
    b.n_bits⟩

/-- Modelled from the spec: `|=` against another bitset of equal `n_bits`. -/
def bitset.or_eq (w : Nat) (b other : bitset) : bitset :=
  ⟨(List.range b.words.length).map fun j => b.words.getD j 0 ||| other.words.getD j 0,
    b.n_bits⟩

/-- Modelled from the spec: `^=` against another bitset of equal `n_bits`. -/
def bitset.xor_eq (w : Nat) (b other : bitset) : bitset :=
  ⟨(List.range b.words.length).map fun j => b.words.getD j 0 ^^^ other.words.getD j 0,
    b.n_bits⟩

/-- Well-formedness of a bitset representation: the word array has exactly the
required length, every word fits the word width, and every padding bit beyond
`n_bits` reads as zero. -/
def bitset.wf (w : Nat) (b : bitset) : Prop :=
  b.words.length = numWordsFor w b.n_bits ∧
  (∀ j, j < b.words.length → b.words.getD j 0 < 2 ^ w) ∧
  (∀ pos, pos < b.words.length * w → b.n_bits ≤ pos → bitset.test w b pos = false)

/-- One mutating bitset operation of the claimed op set. -/
inductive BitsetOp where
  | setBit : Nat → Bool → BitsetOp
  | flip_all : BitsetOp
  | reset : BitsetOp
  | and_eq : bitset → BitsetOp
  | or_eq : bitset → BitsetOp
  | xor_eq : bitset → BitsetOp

/-- Apply one operation. -/
def applyOp (w : Nat) (b : bitset) : BitsetOp → bitset
  | .setBit pos val => bitset.set w b pos val
  | .flip_all => bitset.flip_all w b
  | .reset => bitset.reset b
  | .and_eq o => bitset.and_eq w b o
  | .or_eq o => bitset.or_eq w b o
  | .xor_eq o => bitset.xor_eq w b o

/-- Apply a finite sequence of operations, left to right. -/
def applyOps (w : Nat) (b : bitset) (ops : List BitsetOp) : bitset :=
  ops.foldl (applyOp w) b

/-- The caller-side validity of one operation on an `n_bits`-sized bitset:
`set` positions are in range, and bitwise operands are well-formed bitsets of
equal `n_bits`. -/
def opValid (w n_bits : Nat) : BitsetOp → Prop
  | .setBit pos _ => pos < n_bits
  | .flip_all => True
  | .reset => True
  | .and_eq o => o.n_bits = n_bits ∧ bitset.wf w o
  | .or_eq o => o.n_bits = n_bits ∧ bitset.wf w o
  | .xor_eq o => o.n_bits = n_bits ∧ bitset.wf w o

/-! ### Helper lemmas for the bitset proofs -/

theorem getD_range_map {γ : Type} (f : Nat → γ) (n j : Nat) (d : γ) (h : j < n) :
    ((List.range n).map f).getD j d = f j := by
  have hlen : j < ((List.range n).map f).length := by simpa using h
  rw [List.getD_eq_getElem _ _ hlen, List.getElem_map, List.getElem_range]

theorem getD_set_self {γ : Type} (xs : List γ) (j : Nat) (v d : γ) (h : j < xs.length) :
    (xs.set j v).getD j d = v := by
  have hlen : j < (xs.set j v).length := by simpa using h
  rw [List.getD_eq_getElem _ _ hlen, List.getElem_set_self]

theorem getD_set_ne {γ : Type} (xs : List γ) (i j : Nat) (v d : γ) (h : i ≠ j) :
    (xs.set i v).getD j d = xs.getD j d := by
  by_cases hj : j < xs.length
  · have hlen : j < (xs.set i v).length := by simpa using hj
    rw [List.getD_eq_getElem _ _ hlen, List.getD_eq_getElem _ _ hj, List.getElem_set_ne h]
  · rw [List.getD_eq_default _ _ (by simpa using Nat.le_of_not_lt hj),
      List.getD_eq_default _ _ (Nat.le_of_not_lt hj)]

theorem getD_replicate_zero (n j : Nat) : (List.replicate n (0 : Nat)).getD j 0 = 0 := by
  by_cases hj : j < n
  · have hlen : j < (List.replicate n (0 : Nat)).length := by simpa using hj
    rw [List.getD_eq_getElem _ _ hlen, List.getElem_replicate]
  · rw [List.getD_eq_default _ _ (by simpa using Nat.le_of_not_lt hj)]

/-- Rounding up to whole words covers all the bits. -/
theorem le_roundUp {w : Nat} (hw : 0 < w) (c : Nat) : c ≤ (c + w - 1) / w * w := by
  rcases Nat.eq_zero_or_pos c with rfl | hc
  · simp
  obtain ⟨d, rfl⟩ : ∃ d, c = d + 1 := ⟨c - 1, by omega⟩
  have h1 : d + 1 + w - 1 = d + w := by omega
  rw [h1, Nat.add_div_right _ hw, Nat.succ_mul]
  have e := Nat.div_add_mod' d w
  have hm : d % w < w := Nat.mod_lt _ hw
  omega

theorem n_bits_le_words (w : Nat) (hw : 0 < w) {b : core.bitset}
    (hb : core.bitset.wf w b) : b.n_bits ≤ b.words.length * w := by
  rw [hb.1]
  exact le_roundUp hw b.n_bits

/-- Past the allocated words, every bit reads as zero. -/
theorem test_of_words_le {w : Nat} (hw : 0 < w) (b : core.bitset) (pos : Nat)
    (h : b.words.length * w ≤ pos) : core.bitset.test w b pos = false := by
  have hdiv : b.words.length ≤ pos / w := (Nat.le_div_iff_mul_le hw).mpr h
  unfold core.bitset.test
  rw [List.getD_eq_default _ _ hdiv, Nat.zero_testBit]

/-- The valid-bits mask fits the word width. -/
theorem wordMask_lt (w n_bits j : Nat) : core.wordMask w n_bits j < 2 ^ w := by
  have h1 : core.validBits w n_bits j ≤ w := Nat.min_le_left _ _
  have h2 : (2 : Nat) ^ core.validBits w n_bits j ≤ 2 ^ w :=
    Nat.pow_le_pow_right (by norm_num) h1
  have h3 : (0 : Nat) < 2 ^ core.validBits w n_bits j := Nat.pos_pow_of_pos _ (by norm_num)
  unfold core.wordMask
  omega

/-- A padding position inside word `j` is beyond that word's valid bits. -/
theorem validBits_le_of_tail {w n_bits pos : Nat} (hw : 0 < w) (hpos : n_bits ≤ pos) :
    core.validBits w n_bits (pos / w) ≤ pos % w := by
  have e := Nat.div_add_mod' pos w
  have h1 : core.validBits w n_bits (pos / w) ≤ n_bits - pos / w * w := Nat.min_le_right _ _
  omega

/-- Tail positions of a masked word read as zero. -/
theorem testBit_mask_tail {w n_bits pos : Nat} (hw : 0 < w) (hpos : n_bits ≤ pos) (x : Nat) :
    (x &&& core.wordMask w n_bits (pos / w)).testBit (pos % w) = false := by
  rw [Nat.testBit_land]
  have h1 := validBits_le_of_tail hw hpos
  unfold core.wordMask
  rw [Nat.testBit_two_pow_sub_one]
  simp [Nat.not_lt.mpr h1]

/-- `set` preserves well-formedness (tail bits stay zero, words stay in
range). -/
theorem wf_set {w : Nat} (hw : 0 < w) {b : core.bitset} (hb : core.bitset.wf w b)
    {pos : Nat} (hpos : pos < b.n_bits) (val : Bool) :
    core.bitset.wf w (core.bitset.set w b pos val) := by
  have hnw := n_bits_le_words w hw hb
  have hql : pos / w < b.words.length := (Nat.div_lt_iff_lt_mul hw).mpr (by omega)
  obtain ⟨hL, hB, hT⟩ := hb
  simp only [core.bitset.wf, core.bitset.set, core.bitset.test, List.length_set]
  refine ⟨hL, ?_, ?_⟩
  · intro j hj
    by_cases hjq : pos / w = j
    · subst hjq
      rw [getD_set_self _ _ _ _ hql]
      cases val with
      | true =>
        rw [if_pos rfl]
        exact Nat.or_lt_two_pow (hB _ hql)
          (Nat.pow_lt_pow_right (by norm_num) (Nat.mod_lt _ hw))
      | false =>
        rw [if_neg (by decide)]
        exact Nat.lt_of_le_of_lt Nat.and_le_left (hB _ hql)
    · rw [getD_set_ne _ _ _ _ _ hjq]
      exact hB j hj
  · intro pos2 hlt2 hge2
    have htail : (b.words.getD (pos2 / w) 0).testBit (pos2 % w) = false := hT pos2 hlt2 hge2
    by_cases hq2 : pos / w = pos2 / w
    · rw [← hq2] at htail ⊢
      rw [getD_set_self _ _ _ _ hql]
      have hne : pos % w ≠ pos2 % w := by
        intro he
        have e1 := Nat.div_add_mod' pos w
        have e2 := Nat.div_add_mod' pos2 w
        rw [hq2] at e1
        omega
      cases val with
      | true =>
        rw [if_pos rfl, Nat.testBit_lor, htail, Bool.false_or, Nat.testBit_two_pow]
        simp [hne]
      | false =>
        rw [if_neg (by decide), Nat.testBit_land, htail, Bool.false_and]
    · rw [getD_set_ne _ _ _ _ _ hq2]
      exact htail

/-- `flip_all` preserves well-formedness: the complement is masked back to the
valid bits. -/
theorem wf_flip {w : Nat} (hw : 0 < w) {b : core.bitset} (hb : core.bitset.wf w b) :
    core.bitset.wf w (core.bitset.flip_all w b) := by
  obtain ⟨hL, hB, hT⟩ := hb
  simp only [core.bitset.wf, core.bitset.flip_all, core.bitset.test]
  refine ⟨by simp [hL], ?_, ?_⟩
  · intro j hj
    have hj' : j < b.words.length := by simpa using hj
    rw [getD_range_map _ _ _ _ hj']
    exact Nat.lt_of_le_of_lt Nat.and_le_right (wordMask_lt w b.n_bits j)
  · intro pos hlt hge
    have hlt' : pos < b.words.length * w := by simpa using hlt
    have hq : pos / w < b.words.length := (Nat.div_lt_iff_lt_mul hw).mpr hlt'
    rw [getD_range_map _ _ _ _ hq]
    exact testBit_mask_tail hw hge _

/-- `reset` preserves well-formedness. -/
theorem wf_reset_op {w : Nat} {b : core.bitset} (hb : core.bitset.wf w b) :
    core.bitset.wf w (core.bitset.reset b) := by
  obtain ⟨hL, hB, hT⟩ := hb
  simp only [core.bitset.wf, core.bitset.reset, core.bitset.test]
  refine ⟨by simp [hL], ?_, ?_⟩
  · intro j _
    rw [getD_replicate_zero]
    exact Nat.pos_pow_of_pos _ (by norm_num)
  · intro pos _ _
    rw [getD_replicate_zero, Nat.zero_testBit]

/-- `&=` against a well-formed bitset of equal `n_bits` preserves
well-formedness. -/
theorem wf_and_eq {w : Nat} (hw : 0 < w) {b other : core.bitset}
    (hb : core.bitset.wf w b) (ho : core.bitset.wf w other)
    (hn : other.n_bits = b.n_bits) : core.bitset.wf w (core.bitset.and_eq w b other) := by
  obtain ⟨hL, hB, hT⟩ := hb
  simp only [core.bitset.wf, core.bitset.and_eq, core.bitset.test]
  refine ⟨by simp [hL], ?_, ?_⟩
  · intro j hj
    have hj' : j < b.words.length := by simpa using hj
    rw [getD_range_map _ _ _ _ hj']
    exact Nat.lt_of_le_of_lt Nat.and_le_left (hB j hj')
  · intro pos hlt hge
    have hlt' : pos < b.words.length * w := by simpa using hlt
    have hq : pos / w < b.words.length := (Nat.div_lt_iff_lt_mul hw).mpr hlt'
    have h1 : (b.words.getD (pos / w) 0).testBit (pos % w) = false := hT pos hlt' hge
    rw [getD_range_map _ _ _ _ hq, Nat.testBit_land, h1, Bool.false_and]

/-- `|=` against a well-formed bitset of equal `n_bits` preserves
well-formedness. -/
theorem wf_or_eq {w : Nat} (hw : 0 < w) {b other : core.bitset}
    (hb : core.bitset.wf w b) (ho : core.bitset.wf w other)
    (hn : other.n_bits = b.n_bits) : core.bitset.wf w (core.bitset.or_eq w b other) := by
  have hlen2 : other.words.length = b.words.length := by rw [ho.1, hb.1, hn]
  obtain ⟨hL, hB, hT⟩ := hb
  obtain ⟨hoL, hoB, hoT⟩ := ho
  simp only [core.bitset.wf, core.bitset.or_eq, core.bitset.test]
  refine ⟨by simp [hL], ?_, ?_⟩
  · intro j hj
    have hj' : j < b.words.length := by simpa using hj
    exact (getD_range_map _ _ _ _ hj') ▸
      Nat.or_lt_two_pow (hB j hj') (hoB j (hlen2 ▸ hj'))
  · intro pos hlt hge
    have hlt' : pos < b.words.length * w := by simpa using hlt
    have hq : pos / w < b.words.length := (Nat.div_lt_iff_lt_mul hw).mpr hlt'
    have h1 : (b.words.getD (pos / w) 0).testBit (pos % w) = false := hT pos hlt' hge
    have h2 : (other.words.getD (pos / w) 0).testBit (pos % w) = false :=
      hoT pos (by rw [hlen2]; exact hlt') (by rw [hn]; exact hge)
    rw [getD_range_map _ _ _ _ hq, Nat.testBit_lor, h1, h2, Bool.false_or]

/-- `^=` against a well-formed bitset of equal `n_bits` preserves
well-formedness. -/
theorem wf_xor_eq {w : Nat} (hw : 0 < w) {b other : core.bitset}
    (hb : core.bitset.wf w b) (ho : core.bitset.wf w other)
    (hn : other.n_bits = b.n_bits) : core.bitset.wf w (core.bitset.xor_eq w b other) := by
  have hlen2 : other.words.length = b.words.length := by rw [ho.1, hb.1, hn]
  obtain ⟨hL, hB, hT⟩ := hb
  obtain ⟨hoL, hoB, hoT⟩ := ho
  simp only [core.bitset.wf, core.bitset.xor_eq, core.bitset.test]
  refine ⟨by simp [hL], ?_, ?_⟩
  · intro j hj
    have hj' : j < b.words.length := by simpa using hj
    exact (getD_range_map _ _ _ _ hj') ▸
      Nat.xor_lt_two_pow (hB j hj') (hoB j (hlen2 ▸ hj'))
  · intro pos hlt hge
    have hlt' : pos < b.words.length * w := by simpa using hlt
    have hq : pos / w < b.words.length := (Nat.div_lt_iff_lt_mul hw).mpr hlt'
    have h1 : (b.words.getD (pos / w) 0).testBit (pos % w) = false := hT pos hlt' hge
    have h2 : (other.words.getD (pos / w) 0).testBit (pos % w) = false :=
      hoT pos (by rw [hlen2]; exact hlt') (by rw [hn]; exact hge)
    rw [getD_range_map _ _ _ _ hq, Nat.testBit_xor, h1, h2]
    rfl

theorem applyOp_n_bits (w : Nat) (b : core.bitset) (op : core.BitsetOp) :
    (core.applyOp w b op).n_bits = b.n_bits := by
  cases op <;> rfl

theorem wf_applyOp {w : Nat} (hw : 0 < w) {b : core.bitset} (hb : core.bitset.wf w b)
    {op : core.BitsetOp} (hv : core.opValid w b.n_bits op) :
    core.bitset.wf w (core.applyOp w b op) := by
  cases op with
  | setBit pos val => exact wf_set hw hb hv val
  | flip_all => exact wf_flip hw hb
  | reset => exact wf_reset_op hb
  | and_eq o => exact wf_and_eq hw hb hv.2 hv.1
  | or_eq o => exact wf_or_eq hw hb hv.2 hv.1
  | xor_eq o => exact wf_xor_eq hw hb hv.2 hv.1

theorem wf_applyOps {w : Nat} (hw : 0 < w) :
    ∀ (ops : List core.BitsetOp) (b : core.bitset), core.bitset.wf w b →
      (∀ op ∈ ops, core.opValid w b.n_bits op) →
      core.bitset.wf w (core.applyOps w b ops) ∧
        (core.applyOps w b ops).n_bits = b.n_bits := by
  intro ops
  induction ops with
  | nil => exact fun b hb _ => ⟨hb, rfl⟩
  | cons op ops ih =>
    intro b hb hv
    have h1 := wf_applyOp hw hb (hv op (List.mem_cons_self op ops))
    have hn := applyOp_n_bits w b op
    have h2 := ih (core.applyOp w b op) h1 fun o ho => by
      rw [hn]
      exact hv o (List.mem_cons_of_mem _ ho)
    have hstep : core.applyOps w b (op :: ops) = core.applyOps w (core.applyOp w b op) ops :=
      rfl
    rw [hstep, h2.2, hn]
    exact ⟨h2.1, rfl⟩

/-- A well-formed bitset never counts more than `n_bits` set bits. -/
theorem count_le_n_bits {w : Nat} (hw : 0 < w) {b : core.bitset}
    (hb : core.bitset.wf w b) : core.bitset.count w b ≤ b.n_bits := by
  have hnw := n_bits_le_words w hw hb
  unfold core.bitset.count
  rw [show b.words.length * w = b.n_bits + (b.words.length * w - b.n_bits) by omega,
    List.range_add, List.countP_append]
  have h1 : (List.range b.n_bits).countP (fun p => core.bitset.test w b p) ≤ b.n_bits := by
    have h : (List.range b.n_bits).countP (fun p => core.bitset.test w b p) ≤
        (List.range b.n_bits).length := List.countP_le_length _
    simpa using h
  have h2 : ((List.range (b.words.length * w - b.n_bits)).map
      (fun x => b.n_bits + x)).countP (fun p => core.bitset.test w b p) = 0 := by
    rw [List.countP_eq_zero]
    intro a ha
    obtain ⟨x, hx, rfl⟩ := List.mem_map.mp ha
    have hxr := List.mem_range.mp hx
    have hfalse := hb.2.2 (b.n_bits + x) (by omega) (by omega)
    simp [hfalse]
  omega

/-- C6: after any finite sequence of `set`, `flip_all`, `reset` and bitwise
`&=`/`|=`/`^=` operations on a well-formed `n_bits`-sized bitset, `count()`
never exceeds `n_bits`, and `test(pos)` reads false for every `pos ≥ n_bits`
(tail padding bits stay zero after every mutating operation). -/
theorem C6_bitset_tail_invariant {w : Nat} (hw : 0 < w) (b : core.bitset)
    (hb : core.bitset.wf w b) (ops : List core.BitsetOp)
    (hops : ∀ op ∈ ops, core.opValid w b.n_bits op) :
    core.bitset.count w (core.applyOps w b ops) ≤ b.n_bits ∧
    ∀ pos, b.n_bits ≤ pos → core.bitset.test w (core.applyOps w b ops) pos = false := by
  obtain ⟨hwf, hnb⟩ := wf_applyOps hw ops b hb hops
  constructor
  · have h := count_le_n_bits hw hwf
    rw [hnb] at h
    exact h
  · intro pos hpos
    by_cases hlt : pos < (core.applyOps w b ops).words.length * w
    · exact hwf.2.2 pos hlt (by rw [hnb]; exact hpos)
    · exact test_of_words_le hw _ pos (by omega)

theorem C6_bitset_tail_invariant_witness :
    ((0 : Nat) < 4 ∧ core.bitset.wf 4 ⟨[5], 3⟩ ∧
      (∀ op ∈ [core.BitsetOp.setBit 0 true, core.BitsetOp.flip_all,
          core.BitsetOp.xor_eq ⟨[2], 3⟩], core.opValid 4 3 op)) ∧
      (core.bitset.count 4 (core.applyOps 4 ⟨[5], 3⟩
          [core.BitsetOp.setBit 0 true, core.BitsetOp.flip_all,
            core.BitsetOp.xor_eq ⟨[2], 3⟩]) ≤ 3 ∧
        ∀ pos, 3 ≤ pos → core.bitset.test 4 (core.applyOps 4 ⟨[5], 3⟩
          [core.BitsetOp.setBit 0 true, core.BitsetOp.flip_all,
            core.BitsetOp.xor_eq ⟨[2], 3⟩]) pos = false) := by
  have hwf : core.bitset.wf 4 ⟨[5], 3⟩ := by
    unfold core.bitset.wf
    decide
  have hops : ∀ op ∈ [core.BitsetOp.setBit 0 true, core.BitsetOp.flip_all,
      core.BitsetOp.xor_eq ⟨[2], 3⟩], core.opValid 4 3 op := by
    intro op hop
    rcases List.mem_cons.mp hop with rfl | hop
    · show (0 : Nat) < 3
      decide
    · rcases List.mem_cons.mp hop with rfl | hop
      · trivial
      · rcases List.mem_cons.mp hop with rfl | hop
        · refine ⟨rfl, ?_⟩
          unfold core.bitset.wf
          decide
        · cases hop
  exact ⟨⟨by decide, hwf, hops⟩,
    C6_bitset_tail_invariant (by decide) ⟨[5], 3⟩ hwf _ hops⟩

end core

end Cuvs
